import Mathlib

/-!
Shallow embedding of `src/diff/makePatterns.ts` (devreplay).

JavaScript strings are modelled as Lean `String` (a wrapper around
`List Char` in this toolchain); JS numbers appearing here are integers
and are modelled as `Nat`, with subtraction that may go negative done in
`Int`.  `' '.repeat(n)` throws a `RangeError` for negative `n`, so the
functions that can reach it return `Except String _`, with `.error`
standing for a thrown exception.  The external collaborators (the
tokenizer `tokenize` and the diff parser `makeDiffObj`) are not part of
this core: the drivers are parameterised by the tokenizer function, and
`makePatternsFromDiff` is stated over the chunk list the parser returns.
-/

/-- Section sign for a JS token, from the external `source-code-tokenizer`:
`{ value, scopes, line, columns: {start, end} }`.  `columns.start` and
`columns.end` are flattened to `colStart` / `colEnd`. -/
structure Token where
  value : String
  scopes : List String
  line : Nat
  colStart : Nat
  colEnd : Nat
  deriving DecidableEq

/-- Interface `Identifier { value: string; scope: string }` (makePatterns.ts, lines 6-9). -/
structure Identifier where
  value : String
  scope : String
  deriving DecidableEq

/-- Output `Pattern { condition, consequent, identifiers }` (from `../patterns`). -/
structure Pattern where
  condition : List String
  consequent : List String
  identifiers : List String
  deriving DecidableEq

/-- Chunk produced by the external diff parser:
`Chunk { deleted: string[], added: string[], source: string }`. -/
structure Chunk where
  deleted : List String
  added : List String
  source : String
  deriving DecidableEq

/-- Boolean prefix test on character lists (helper for `jsIncludes`). -/
def strStartsWith : List Char → List Char → Bool
  | [], _ => true
  | _ :: _, [] => false
  | c :: cs, d :: ds => c = d && strStartsWith cs ds

/-- Boolean contiguous-substring test on character lists (helper for `jsIncludes`). -/
def strContains (sub : List Char) : List Char → Bool
  | [] => strStartsWith sub []
  | d :: ds => strStartsWith sub (d :: ds) || strContains sub ds

/-- JS `s.includes(sub)`: `sub` occurs contiguously in `s`. -/
def jsIncludes (s sub : String) : Bool :=
  strContains sub.toList s.toList

/-- The innermost scope `token.scopes[token.scopes.length - 1]`
(makePatterns.ts lines 55, 57, 106, 118).  The tokenizer always emits at
least one scope (the grammar's root scope), so the out-of-range access is
modelled by the default `""`. -/
def lastScope (token : Token) : String :=
  token.scopes.getLastD ""

/-- JS `' '.repeat(n)`: a string of `n` spaces; throws `RangeError` when
`n` is negative (makePatterns.ts line 97). -/
def jsRepeat (n : Int) : Except String String :=
  if n < 0 then .error "RangeError: Invalid count value"
  else .ok (String.mk (List.replicate n.toNat ' '))

/-- JS `s.slice(k)` where `k` is a nonnegative integer or `Infinity`
(`none` stands for `Infinity`, the value `Math.min` of an empty spread
returns): drops the first `k` characters, clamped to the whole string. -/
def jsSlice (s : String) : Option Nat → String
  | none => ""
  | some k => String.mk (s.toList.drop k)

/-- JS `Math.min(a, b)` on two values that are each a natural number or
`Infinity` (`none`). -/
def jsMathMin : Option Nat → Option Nat → Option Nat
  | none, b => b
  | some a, none => some a
  | some a, some b => some (min a b)

/-- JS `Math.min(...spaces)` over a list of naturals: `Infinity` (`none`)
on the empty list. -/
def minOfList : List Nat → Option Nat
  | [] => none
  | n :: ns =>
    match minOfList ns with
    | none => some n
    | some m => some (min n m)

/-- Inner loop of `countSpace` (makePatterns.ts lines 144-151): counts
leading `' '` characters of one line, stopping at the first other character. -/
def leadingSpacesAux : List Char → Nat
  | [] => 0
  | c :: cs => if c = ' ' then leadingSpacesAux cs + 1 else 0

/-- Leading-space count of a line. -/
def leadingSpaces (s : String) : Nat :=
  leadingSpacesAux s.toList

/-- Function `countSpace(patternLines)` (makePatterns.ts lines 140-155):
the minimum leading-space count over the non-empty lines (empty lines are
skipped by the `continue`); `Math.min` of no values is `Infinity` (`none`). -/
def countSpace (patternLines : List String) : Option Nat :=
  minOfList ((patternLines.filter (fun l => l ≠ "")).map leadingSpaces)

/-- Function `formatPatterns(conditon, consequent)` (makePatterns.ts lines
127-138): slice the overall minimum leading-space count off every line of
both sides. -/
def formatPatterns (conditon consequent : List String) : List String × List String :=
  let minSpace := jsMathMin (countSpace conditon) (countSpace consequent)
  (conditon.map (fun line => jsSlice line minSpace),
   consequent.map (fun line => jsSlice line minSpace))

/-- Loop of `checkInIdentifiers` (makePatterns.ts lines 105-113), carrying
the running 1-based `identIndex`. -/
def checkInIdentifiersAux (identIndex : Nat) (value scope : String) :
    List Identifier → Option Nat
  | [] => none
  | identifier :: rest =>
    if value = identifier.value ∧ scope = identifier.scope then some identIndex
    else checkInIdentifiersAux (identIndex + 1) value scope rest

/-- Function `checkInIdentifiers(identifiers, token)` (makePatterns.ts lines
104-115): the 1-based index of the first identifier matching the token's
value and innermost scope, or `undefined` (`none`). -/
def checkInIdentifiers (identifiers : List Identifier) (token : Token) : Option Nat :=
  checkInIdentifiersAux 1 token.value (lastScope token) identifiers

/-- Semantics of the first regex alternative `^([a-zA-Z][a-zA-Z0-9]*)`:
anchored at the start; it succeeds iff the first character is an ASCII
letter, since the starred class may match the empty string and this
alternative has no `$` anchor. -/
def startsWithLetter : List Char → Bool
  | [] => false
  | c :: _ => c.isAlpha

/-- Semantics of the second regex alternative `[0-9]+$`: anchored at the
end only; searching the string finds a match iff the final character is a
digit (a one-character run suffices). -/
def endsWithDigit (cs : List Char) : Bool :=
  match cs.getLast? with
  | none => false
  | some c => c.isDigit

/-- JS `value.match(/^([a-zA-Z][a-zA-Z0-9]*)|[0-9]+$/i)` is non-null iff
one of the two top-level alternatives matches somewhere; regex precedence
makes `^` anchor only the first alternative and `$` only the second.  The
`i` flag is redundant because `[a-zA-Z]` already lists both cases. -/
def regexMatchTruthy (value : String) : Bool :=
  startsWithLetter value.toList || endsWithDigit value.toList

/-- Function `isAbstractable(token)` (makePatterns.ts lines 117-121). -/
def isAbstractable (token : Token) : Bool :=
  let scope := lastScope token
  regexMatchTruthy token.value &&
    !(jsIncludes scope "keyword") && !(jsIncludes scope "builtin") &&
    !(jsIncludes scope "storage")

/-- Inner loop of `collectCommonIdentifiers` (makePatterns.ts lines 56-67):
scan `afterTokens` for one `beforeToken`, pushing at most one new identifier. -/
def collectCommonIdentifiersInner (identifiers : List Identifier)
    (beforeToken : Token) : List Token → List Identifier
  | [] => identifiers
  | afterToken :: rest =>
    let beforeScope := lastScope beforeToken
    let afterScope := lastScope afterToken
    let identifiers' :=
      if beforeToken.value = afterToken.value ∧ beforeScope = afterScope ∧
         checkInIdentifiers identifiers beforeToken = none ∧
         isAbstractable beforeToken = true then
        identifiers ++ [⟨beforeToken.value, beforeScope⟩]
      else identifiers
    collectCommonIdentifiersInner identifiers' beforeToken rest

/-- Outer loop of `collectCommonIdentifiers` (makePatterns.ts lines 54-68). -/
def collectCommonIdentifiersOuter (identifiers : List Identifier)
    (afterTokens : List Token) : List Token → List Identifier
  | [] => identifiers
  | beforeToken :: rest =>
    collectCommonIdentifiersOuter
      (collectCommonIdentifiersInner identifiers beforeToken afterTokens)
      afterTokens rest

/-- Function `collectCommonIdentifiers(beforeTokens, afterTokens)`
(makePatterns.ts lines 52-70). -/
def collectCommonIdentifiers (beforeTokens afterTokens : List Token) : List Identifier :=
  collectCommonIdentifiersOuter [] afterTokens beforeTokens

/-- The text emitted for one token by `makeAbstractedCode` (makePatterns.ts
lines 92-95): a placeholder when the token's value and innermost scope
match a collected identifier, the literal value otherwise. -/
def tokenText (identifiers : List Identifier) (token : Token) : String :=
  match checkInIdentifiers identifiers token with
  | some identIndex =>
    "$\x7b" ++ toString identIndex ++ ":" ++ lastScope token ++ "\x7d"
  | none => token.value

/-- Mutable state of the `makeAbstractedCode` loop (makePatterns.ts lines
74-77): `patterns`, `previousPosition`, `previousLine`, `lineContents`. -/
structure AbsState where
  patterns : List String
  previousPosition : Nat
  previousLine : Nat
  lineContents : String
  deriving DecidableEq

/-- One iteration of the `makeAbstractedCode` loop body (makePatterns.ts
lines 78-98).  `jsRepeat` raises when the column gap is negative. -/
def absStep (identifiers : List Identifier) (st : AbsState) (token : Token) :
    Except String AbsState :=
  let previousLine := if st.previousLine = 0 then token.line else st.previousLine
  let st' :=
    if token.line ≠ previousLine then
      AbsState.mk (st.patterns ++ [st.lineContents]) 1 token.line ""
    else
      { st with previousLine := previousLine }
  match jsRepeat ((token.colStart : Int) - (st'.previousPosition : Int)) with
  | .error e => .error e
  | .ok spaces =>
    .ok { st' with
          previousPosition := token.colEnd,
          lineContents := st'.lineContents ++ spaces ++ tokenText identifiers token }

/-- The `makeAbstractedCode` loop over the whole token list. -/
def absLoop (identifiers : List Identifier) (st : AbsState) :
    List Token → Except String AbsState
  | [] => .ok st
  | token :: rest =>
    match absStep identifiers st token with
    | .error e => .error e
    | .ok st' => absLoop identifiers st' rest

/-- Function `makeAbstractedCode(tokens, identifiers)` (makePatterns.ts
lines 73-101): run the loop from the initial state and flush the last
accumulated line. -/
def makeAbstractedCode (tokens : List Token) (identifiers : List Identifier) :
    Except String (List String) :=
  match absLoop identifiers (AbsState.mk [] 1 0 "") tokens with
  | .error e => .error e
  | .ok st => .ok (st.patterns ++ [st.lineContents])

/-- Function `isEmptyPattern(pattern)` (makePatterns.ts lines 123-125):
`pattern.length === 1 && pattern[0] === ''`. -/
def isEmptyPattern (pattern : List String) : Bool :=
  pattern.length = 1 && pattern.getD 0 "x" = ""

/-- Function `makePatterns(before, after, source)` (makePatterns.ts lines
27-50), parameterised by the external async tokenizer `tokenize(text,
source)`, modelled as `tok : String → String → Option (List Token)`
(`none` is the tokenizer's `undefined`).  A thrown exception from
`makeAbstractedCode` propagates as `.error`; the first call is awaited
first, so its exception wins. -/
def makePatterns (tok : String → String → Option (List Token))
    (before after source : Option String) : Except String (Option Pattern) :=
  match before, after, source with
  | some before, some after, some source =>
    match tok before source, tok after source with
    | some beforeTokens, some afterTokens =>
      let identifiers := collectCommonIdentifiers beforeTokens afterTokens
      match makeAbstractedCode beforeTokens identifiers with
      | .error e => .error e
      | .ok conditionPatterns =>
        match makeAbstractedCode afterTokens identifiers with
        | .error e => .error e
        | .ok consequentPatterns =>
          let f := formatPatterns conditionPatterns consequentPatterns
          .ok (some (Pattern.mk f.1 f.2 (identifiers.map Identifier.value)))
    | _, _ => .ok none
  | _, _, _ => .ok none

/-- Function `makePatternsFromChunk(chunk)` (makePatterns.ts lines 23-25):
join the deleted/added lines with newlines and call `makePatterns`. -/
def makePatternsFromChunk (tok : String → String → Option (List Token))
    (chunk : Chunk) : Except String (Option Pattern) :=
  makePatterns tok (some (String.intercalate "\n" chunk.deleted))
    (some (String.intercalate "\n" chunk.added)) (some chunk.source)

/-- Loop of `makePatternsFromDiff` (makePatterns.ts lines 14-19), carrying
the accumulated pattern list. -/
def makePatternsFromDiffLoop (tok : String → String → Option (List Token))
    (patterns : List Pattern) : List Chunk → Except String (List Pattern)
  | [] => .ok patterns
  | chunk :: rest =>
    match makePatternsFromChunk tok chunk with
    | .error e => .error e
    | .ok p =>
      let patterns' :=
        match p with
        | some pattern =>
          if !isEmptyPattern pattern.condition && !isEmptyPattern pattern.consequent then
            patterns ++ [pattern]
          else patterns
        | none => patterns
      makePatternsFromDiffLoop tok patterns' rest

/-- Function `makePatternsFromDiff(diff)` (makePatterns.ts lines 11-21),
stated over the chunk list produced by the external diff parser
`makeDiffObj`. -/
def makePatternsFromDiff (tok : String → String → Option (List Token))
    (chunks : List Chunk) : Except String (List Pattern) :=
  makePatternsFromDiffLoop tok [] chunks

/-- Modelled from the spec (§4.1): the whole value is an identifier/number
shape, "an alphanumeric string starting with a letter, or a pure digit
run (the whole value, not merely a prefix or suffix)". -/
def specWholeValueShape (value : String) : Bool :=
  (match value.toList with
   | [] => false
   | c :: cs => c.isAlpha && cs.all (fun d => d.isAlpha || d.isDigit)) ||
  (!value.toList.isEmpty && value.toList.all Char.isDigit)

/-- Modelled from the spec (§4.1): a token is abstractable iff its whole
value has the identifier/number shape and its innermost scope does not
indicate a keyword, builtin, or storage qualifier. -/
def specAbstractable (token : Token) : Bool :=
  specWholeValueShape token.value &&
    !(jsIncludes (lastScope token) "keyword") &&
    !(jsIncludes (lastScope token) "builtin") &&
    !(jsIncludes (lastScope token) "storage")

/-- Modelled from the spec (§4.3): the minimum leading-space count over
all non-empty lines of both inputs combined. -/
def specMinIndent (conditon consequent : List String) : Option Nat :=
  minOfList (((conditon ++ consequent).filter (fun l => l ≠ "")).map leadingSpaces)

/-- Number of line flushes `makeAbstractedCode` performs while scanning
tokens with the given line numbers, starting from `previousLine = prev`
(`0` means unset, matching lines 79-81 of makePatterns.ts). -/
def lineBreaks (prev : Nat) : List Nat → Nat
  | [] => 0
  | l :: ls =>
    (if l ≠ (if prev = 0 then l else prev) then 1 else 0) + lineBreaks l ls

/-! ### Lemmas about `checkInIdentifiers` -/

theorem checkInIdentifiersAux_some (v s : String) :
    ∀ (ids : List Identifier) (k i : Nat),
      checkInIdentifiersAux k v s ids = some i →
      k ≤ i ∧ i < k + ids.length ∧ ids.get? (i - k) = some ⟨v, s⟩ := by
  intro ids
  induction ids with
  | nil => intro k i h; simp [checkInIdentifiersAux] at h
  | cons id rest ih =>
    intro k i h
    simp only [checkInIdentifiersAux] at h
    by_cases hm : v = id.value ∧ s = id.scope
    · rw [if_pos hm] at h
      obtain ⟨rfl⟩ : k = i := Option.some_injective _ h
      refine ⟨le_refl _, by simp [Nat.lt_add_of_pos_right], ?_⟩
      simp only [Nat.sub_self, List.get?]
      obtain ⟨h1, h2⟩ := hm
      cases id
      simp_all
    · rw [if_neg hm] at h
      obtain ⟨h1, h2, h3⟩ := ih (k + 1) i h
      refine ⟨by omega, by simp [List.length_cons]; omega, ?_⟩
      have hik : i - k = (i - (k + 1)) + 1 := by omega
      rw [hik]
      simpa using h3

theorem checkInIdentifiersAux_none (v s : String) :
    ∀ (ids : List Identifier) (k : Nat),
      checkInIdentifiersAux k v s ids = none ↔
        ∀ id ∈ ids, ¬(v = id.value ∧ s = id.scope) := by
  intro ids
  induction ids with
  | nil => intro k; simp [checkInIdentifiersAux]
  | cons id rest ih =>
    intro k
    simp only [checkInIdentifiersAux]
    by_cases hm : v = id.value ∧ s = id.scope
    · rw [if_pos hm]
      simp only [List.mem_cons]
      constructor
      · intro h; cases h
      · intro h; exact absurd hm (h id (Or.inl rfl))
    · rw [if_neg hm]
      rw [ih (k + 1)]
      simp only [List.mem_cons]
      constructor
      · rintro h x (rfl | hx)
        · exact hm
        · exact h x hx
      · intro h x hx; exact h x (Or.inr hx)

theorem checkInIdentifiers_some (ids : List Identifier) (t : Token) (i : Nat)
    (h : checkInIdentifiers ids t = some i) :
    1 ≤ i ∧ i ≤ ids.length ∧ ids.get? (i - 1) = some ⟨t.value, lastScope t⟩ := by
  obtain ⟨h1, h2, h3⟩ := checkInIdentifiersAux_some t.value (lastScope t) ids 1 i h
  exact ⟨h1, by omega, h3⟩

theorem checkInIdentifiers_none_iff (ids : List Identifier) (t : Token) :
    checkInIdentifiers ids t = none ↔
      ∀ id ∈ ids, ¬(t.value = id.value ∧ lastScope t = id.scope) :=
  checkInIdentifiersAux_none t.value (lastScope t) ids 1

/-! ### Lemmas about `collectCommonIdentifiers` -/

theorem collectCommonIdentifiersInner_cases (bt : Token) :
    ∀ (ats : List Token) (acc : List Identifier),
      collectCommonIdentifiersInner acc bt ats = acc ∨
        (collectCommonIdentifiersInner acc bt ats = acc ++ [⟨bt.value, lastScope bt⟩] ∧
         checkInIdentifiers acc bt = none ∧ isAbstractable bt = true ∧
         ∃ a ∈ ats, bt.value = a.value ∧ lastScope bt = lastScope a) := by
  intro ats
  induction ats with
  | nil => intro acc; exact Or.inl rfl
  | cons a rest ih =>
    intro acc
    simp only [collectCommonIdentifiersInner]
    by_cases hg : bt.value = a.value ∧ lastScope bt = lastScope a ∧
        checkInIdentifiers acc bt = none ∧ isAbstractable bt = true
    · rw [if_pos hg]
      rcases ih (acc ++ [⟨bt.value, lastScope bt⟩]) with h | ⟨_, hnone, _, _⟩
      · right
        exact ⟨h, hg.2.2.1, hg.2.2.2, a, List.mem_cons_self a rest, hg.1, hg.2.1⟩
      · exfalso
        rw [checkInIdentifiers_none_iff] at hnone
        exact hnone ⟨bt.value, lastScope bt⟩ (by simp) ⟨rfl, rfl⟩
    · rw [if_neg hg]
      rcases ih acc with h | ⟨h, h1, h2, a', ha', h3, h4⟩
      · exact Or.inl h
      · exact Or.inr ⟨h, h1, h2, a', List.mem_cons_of_mem a ha', h3, h4⟩

theorem collectCommonIdentifiersOuter_mem (ats : List Token) :
    ∀ (bts : List Token) (acc : List Identifier) (id : Identifier),
      id ∈ collectCommonIdentifiersOuter acc ats bts →
      id ∈ acc ∨
        ∃ bt ∈ bts, ∃ a ∈ ats, id = ⟨bt.value, lastScope bt⟩ ∧
          bt.value = a.value ∧ lastScope bt = lastScope a ∧ isAbstractable bt = true := by
  intro bts
  induction bts with
  | nil => intro acc id h; exact Or.inl h
  | cons bt rest ih =>
    intro acc id h
    simp only [collectCommonIdentifiersOuter] at h
    rcases ih _ id h with hacc | ⟨bt', hbt', a, ha, h1, h2, h3, h4⟩
    · rcases collectCommonIdentifiersInner_cases bt ats acc with he | ⟨he, _, habs, a, ha, hv, hs⟩
      · rw [he] at hacc; exact Or.inl hacc
      · rw [he] at hacc
        rcases List.mem_append.mp hacc with h | h
        · exact Or.inl h
        · right
          refine ⟨bt, List.mem_cons_self bt rest, a, ha, ?_, hv, hs, habs⟩
          simpa using h
    · exact Or.inr ⟨bt', List.mem_cons_of_mem bt hbt', a, ha, h1, h2, h3, h4⟩

theorem collectCommonIdentifiersInner_nodup (bt : Token) (ats : List Token)
    (acc : List Identifier) (h : acc.Nodup) :
    (collectCommonIdentifiersInner acc bt ats).Nodup := by
  rcases collectCommonIdentifiersInner_cases bt ats acc with he | ⟨he, hnone, _, _⟩
  · rw [he]; exact h
  · rw [he]
    rw [List.nodup_append]
    refine ⟨h, List.nodup_singleton _, ?_⟩
    intro x hx hx'
    rw [checkInIdentifiers_none_iff] at hnone
    simp only [List.mem_singleton] at hx'
    subst hx'
    exact hnone _ hx ⟨rfl, rfl⟩

theorem collectCommonIdentifiersOuter_nodup (ats : List Token) :
    ∀ (bts : List Token) (acc : List Identifier), acc.Nodup →
      (collectCommonIdentifiersOuter acc ats bts).Nodup := by
  intro bts
  induction bts with
  | nil => intro acc h; exact h
  | cons bt rest ih =>
    intro acc h
    exact ih _ (collectCommonIdentifiersInner_nodup bt ats acc h)

/-- C5: the Identifier Unifier is the literal transcription of the nested
scan (before-tokens outer, after-tokens inner, appending `{value, scope}`
under the four guards), so its output order is fixed by that scan; here we
prove the result never holds a duplicate value+scope pair, and that every
entry comes from an abstractable before-token and an after-token agreeing
on value and innermost scope. -/
theorem collectCommonIdentifiers_nodup_sound (bts ats : List Token) :
    (collectCommonIdentifiers bts ats).Nodup ∧
      ∀ id ∈ collectCommonIdentifiers bts ats,
        ∃ bt ∈ bts, ∃ a ∈ ats, id = ⟨bt.value, lastScope bt⟩ ∧
          bt.value = a.value ∧ lastScope bt = lastScope a ∧ isAbstractable bt = true := by
  constructor
  · exact collectCommonIdentifiersOuter_nodup ats bts [] List.nodup_nil
  · intro id hid
    rcases collectCommonIdentifiersOuter_mem ats bts [] id hid with h | h
    · simp at h
    · exact h

theorem collectCommonIdentifiers_nodup_sound_witness :
    ∃ bt ∈ [Token.mk "x" ["variable"] 1 1 2], ∃ a ∈ [Token.mk "x" ["variable"] 1 1 2],
      (Identifier.mk "x" "variable") = ⟨bt.value, lastScope bt⟩ ∧
        bt.value = a.value ∧ lastScope bt = lastScope a ∧ isAbstractable bt = true :=
  (collectCommonIdentifiers_nodup_sound [Token.mk "x" ["variable"] 1 1 2]
      [Token.mk "x" ["variable"] 1 1 2]).2 ⟨"x", "variable"⟩ (by simp [collectCommonIdentifiers,
        collectCommonIdentifiersOuter, collectCommonIdentifiersInner]; decide)

/-- C9: a token whose innermost scope mentions keyword, builtin or storage
never matches the collected identifier list — `makeAbstractedCode` therefore
emits its literal value (`tokenText`, lines 92-95), never a placeholder,
even when the same value occurs in both streams. -/
theorem keyword_never_placeholder (bts ats : List Token) (t : Token)
    (h : jsIncludes (lastScope t) "keyword" = true ∨
         jsIncludes (lastScope t) "builtin" = true ∨
         jsIncludes (lastScope t) "storage" = true) :
    checkInIdentifiers (collectCommonIdentifiers bts ats) t = none ∧
      tokenText (collectCommonIdentifiers bts ats) t = t.value := by
  have hnone : checkInIdentifiers (collectCommonIdentifiers bts ats) t = none := by
    rw [checkInIdentifiers_none_iff]
    rintro id hid ⟨hv, hs⟩
    obtain ⟨bt, _, a, _, hide, _, _, habs⟩ :=
      (collectCommonIdentifiers_nodup_sound bts ats).2 id hid
    have hscope : id.scope = lastScope bt := by rw [hide]
    rw [isAbstractable] at habs
    simp only [Bool.and_eq_true, Bool.not_eq_true'] at habs
    rw [hs, hscope] at h
    rcases h with h | h | h
    · rw [habs.1.1.2] at h; cases h
    · rw [habs.1.2] at h; cases h
    · rw [habs.2] at h; cases h
  exact ⟨hnone, by rw [tokenText, hnone]⟩

theorem keyword_never_placeholder_witness :
    checkInIdentifiers
        (collectCommonIdentifiers [Token.mk "for" ["keyword.control"] 1 1 4]
          [Token.mk "for" ["keyword.control"] 1 1 4])
        (Token.mk "for" ["keyword.control"] 1 1 4) = none ∧
      tokenText
        (collectCommonIdentifiers [Token.mk "for" ["keyword.control"] 1 1 4]
          [Token.mk "for" ["keyword.control"] 1 1 4])
        (Token.mk "for" ["keyword.control"] 1 1 4) = "for" :=
  keyword_never_placeholder [Token.mk "for" ["keyword.control"] 1 1 4]
    [Token.mk "for" ["keyword.control"] 1 1 4]
    (Token.mk "for" ["keyword.control"] 1 1 4) (Or.inl (by decide))

/-- C1: inside a pattern produced by `makePatterns`, every placeholder is
written by `tokenText` from `checkInIdentifiers`; its index `i` satisfies
`1 ≤ i ≤ identifiers.length`, the pattern's `identifiers[i-1]` is the
placeholder's token value, and the unified identifier at `i-1` carries that
value with the placeholder's printed scope. -/
theorem makePatterns_placeholder_alignment
    (tok : String → String → Option (List Token)) (b a src : String)
    (bts ats : List Token) (p : Pattern)
    (hb : tok b src = some bts) (ha : tok a src = some ats)
    (hp : makePatterns tok (some b) (some a) (some src) = .ok (some p))
    (t : Token) (i : Nat)
    (hi : checkInIdentifiers (collectCommonIdentifiers bts ats) t = some i) :
    tokenText (collectCommonIdentifiers bts ats) t =
        "$\x7b" ++ toString i ++ ":" ++ lastScope t ++ "\x7d" ∧
      1 ≤ i ∧ i ≤ p.identifiers.length ∧
      p.identifiers.get? (i - 1) = some t.value ∧
      (collectCommonIdentifiers bts ats).get? (i - 1) =
        some ⟨t.value, lastScope t⟩ := by
  obtain ⟨h1, h2, h3⟩ := checkInIdentifiers_some _ t i hi
  have hids : p.identifiers = (collectCommonIdentifiers bts ats).map Identifier.value := by
    rw [makePatterns, hb, ha] at hp
    dsimp only at hp
    cases hc : makeAbstractedCode bts (collectCommonIdentifiers bts ats) with
    | error e => rw [hc] at hp; simp at hp
    | ok cond =>
      cases hq : makeAbstractedCode ats (collectCommonIdentifiers bts ats) with
      | error e => rw [hc, hq] at hp; simp at hp
      | ok cons =>
        rw [hc, hq] at hp
        simp only [Except.ok.injEq, Option.some.injEq] at hp
        rw [← hp]
  refine ⟨by rw [tokenText, hi], h1, ?_, ?_, h3⟩
  · rw [hids, List.length_map]; exact h2
  · rw [hids, List.get?_map, h3]; rfl

theorem makePatterns_placeholder_alignment_witness :
    tokenText (collectCommonIdentifiers [Token.mk "x" ["variable"] 1 1 2]
        [Token.mk "x" ["variable"] 1 1 2]) (Token.mk "x" ["variable"] 1 1 2) =
        "$\x7b" ++ toString 1 ++ ":" ++ lastScope (Token.mk "x" ["variable"] 1 1 2) ++ "\x7d" ∧
      1 ≤ 1 ∧
      1 ≤ (Pattern.mk ["$\x7b1:variable\x7d"] ["$\x7b1:variable\x7d"] ["x"]).identifiers.length ∧
      (Pattern.mk ["$\x7b1:variable\x7d"] ["$\x7b1:variable\x7d"] ["x"]).identifiers.get? (1 - 1) =
        some (Token.mk "x" ["variable"] 1 1 2).value ∧
      (collectCommonIdentifiers [Token.mk "x" ["variable"] 1 1 2]
        [Token.mk "x" ["variable"] 1 1 2]).get? (1 - 1) =
        some ⟨(Token.mk "x" ["variable"] 1 1 2).value,
          lastScope (Token.mk "x" ["variable"] 1 1 2)⟩ :=
  makePatterns_placeholder_alignment
    (fun _ _ => some [Token.mk "x" ["variable"] 1 1 2]) "x" "x" "js"
    [Token.mk "x" ["variable"] 1 1 2] [Token.mk "x" ["variable"] 1 1 2]
    (Pattern.mk ["$\x7b1:variable\x7d"] ["$\x7b1:variable\x7d"] ["x"])
    rfl rfl rfl (Token.mk "x" ["variable"] 1 1 2) 1 rfl

/-! ### The abstractable predicate (C2) -/

theorem endsWithDigit_of_all_digits :
    ∀ (cs : List Char), cs.all Char.isDigit = true → cs ≠ [] → endsWithDigit cs = true := by
  intro cs
  induction cs with
  | nil => intro _ h; exact absurd rfl h
  | cons c rest ih =>
    intro hall _
    simp only [List.all_cons, Bool.and_eq_true] at hall
    cases rest with
    | nil => simp [endsWithDigit, hall.1]
    | cons d rest' =>
      have := ih hall.2 (by simp)
      simpa [endsWithDigit, List.getLast?_cons_cons] using this

/-- C2 counterexample: the regex `/^([a-zA-Z][a-zA-Z0-9]*)|[0-9]+$/i` is
anchored per alternative, so the value `"a+"` — which is not wholly
alphanumeric — is still abstractable because it merely starts with a
letter; the claim's whole-value predicate rejects it. -/
theorem isAbstractable_whole_value_cex :
    isAbstractable (Token.mk "a+" ["variable"] 1 1 3) = true ∧
      specAbstractable (Token.mk "a+" ["variable"] 1 1 3) = false := by
  decide

/-- C2 (amended): a token is abstractable iff its value starts with an
ASCII letter or ends with an ASCII digit (the `^` anchor binds only the
first regex alternative and the `$` anchor only the second) and its
innermost scope mentions none of keyword, builtin, storage; every value of
the spec's whole-value shape still passes the code's test. -/
theorem isAbstractable_prefix_suffix (t : Token) :
    (isAbstractable t = true ↔
      ((startsWithLetter t.value.toList = true ∨ endsWithDigit t.value.toList = true) ∧
        jsIncludes (lastScope t) "keyword" = false ∧
        jsIncludes (lastScope t) "builtin" = false ∧
        jsIncludes (lastScope t) "storage" = false)) ∧
      (specAbstractable t = true → isAbstractable t = true) := by
  constructor
  · rw [isAbstractable, regexMatchTruthy]
    simp only [Bool.and_eq_true, Bool.or_eq_true, Bool.not_eq_true']
    tauto
  · intro h
    rw [specAbstractable] at h
    simp only [Bool.and_eq_true, Bool.not_eq_true'] at h
    rw [isAbstractable, regexMatchTruthy]
    simp only [Bool.and_eq_true, Bool.or_eq_true, Bool.not_eq_true']
    refine ⟨⟨⟨?_, h.1.1.2⟩, h.1.2⟩, h.2⟩
    rw [specWholeValueShape] at h
    have hshape := h.1.1.1
    simp only [Bool.or_eq_true, Bool.and_eq_true] at hshape
    rcases hshape with hletter | ⟨hne, hdig⟩
    · left
      cases hl : t.value.toList with
      | nil => rw [hl] at hletter; simp at hletter
      | cons c cs =>
        rw [hl] at hletter
        simp only [Bool.and_eq_true] at hletter
        simp [startsWithLetter, hletter.1]
    · right
      refine endsWithDigit_of_all_digits _ hdig ?_
      simpa using hne

theorem isAbstractable_prefix_suffix_witness :
    specAbstractable (Token.mk "x1" ["variable"] 1 1 3) = true ∧
      isAbstractable (Token.mk "x1" ["variable"] 1 1 3) = true :=
  ⟨by decide, (isAbstractable_prefix_suffix (Token.mk "x1" ["variable"] 1 1 3)).2 (by decide)⟩

/-! ### Lemmas about the Pattern Normalizer -/

theorem minOfList_cons (x : Nat) (l : List Nat) :
    minOfList (x :: l) =
      match minOfList l with
      | none => some x
      | some m => some (min x m) := rfl

theorem minOfList_append :
    ∀ (xs ys : List Nat), minOfList (xs ++ ys) = jsMathMin (minOfList xs) (minOfList ys) := by
  intro xs ys
  induction xs with
  | nil =>
    rw [List.nil_append]
    cases minOfList ys <;> rfl
  | cons x xs ih =>
    rw [List.cons_append, minOfList_cons, minOfList_cons, ih]
    cases minOfList xs <;> cases minOfList ys <;> simp [jsMathMin, min_assoc]

theorem minOfList_eq_none :
    ∀ (xs : List Nat), minOfList xs = none ↔ xs = [] := by
  intro xs
  cases xs with
  | nil => simp [minOfList]
  | cons x xs =>
    simp only [minOfList]
    cases minOfList xs <;> simp

theorem minOfList_mem :
    ∀ (xs : List Nat) (m : Nat), minOfList xs = some m → m ∈ xs := by
  intro xs
  induction xs with
  | nil => intro m h; simp [minOfList] at h
  | cons x xs ih =>
    intro m h
    simp only [minOfList] at h
    cases hx : minOfList xs with
    | none => rw [hx] at h; simp at h; simp [h]
    | some a =>
      rw [hx] at h
      simp only [Option.some.injEq] at h
      rcases le_total x a with hle | hle
      · rw [min_eq_left hle] at h; simp [← h]
      · rw [min_eq_right hle] at h
        exact List.mem_cons_of_mem _ (h ▸ ih a hx)

theorem minOfList_le :
    ∀ (xs : List Nat) (x : Nat), x ∈ xs → ∃ m, minOfList xs = some m ∧ m ≤ x := by
  intro xs
  induction xs with
  | nil => intro x h; cases h
  | cons y ys ih =>
    intro x hx
    cases hy : minOfList ys with
    | none =>
      have hys : ys = [] := (minOfList_eq_none ys).mp hy
      subst hys
      simp only [List.mem_singleton] at hx
      subst hx
      exact ⟨x, rfl, le_refl x⟩
    | some a =>
      rcases List.mem_cons.mp hx with rfl | hmem
      · refine ⟨min x a, ?_, Nat.min_le_left x a⟩
        simp [minOfList, hy]
      · obtain ⟨m, hm, hle⟩ := ih x hmem
        rw [hy] at hm
        simp only [Option.some.injEq] at hm
        subst hm
        refine ⟨min y a, ?_, le_trans (Nat.min_le_right y a) hle⟩
        simp [minOfList, hy]

/-- The overall minimum the code takes (`Math.min` of the two `countSpace`
results, line 128) equals the spec's minimum over the non-empty lines of
both inputs combined. -/
theorem jsMathMin_countSpace_eq_specMinIndent (conditon consequent : List String) :
    jsMathMin (countSpace conditon) (countSpace consequent) =
      specMinIndent conditon consequent := by
  rw [specMinIndent, countSpace, countSpace, List.filter_append, List.map_append,
    minOfList_append]

theorem map_self_of_all_eq {α : Type} (f : α → α) :
    ∀ (l : List α), (∀ x ∈ l, f x = x) → l.map f = l := by
  intro l
  induction l with
  | nil => intro _; rfl
  | cons x xs ih =>
    intro h
    simp only [List.map_cons, h x (List.mem_cons_self x xs),
      ih (fun y hy => h y (List.mem_cons_of_mem x hy))]

/-- C6: `formatPatterns` slices exactly the spec's combined minimum
leading-space count off every line of both sides; when one side has no
non-empty line the minimum resolves from the other side alone, and when
neither side has a non-empty line every line is the empty string and both
sides come back unchanged. -/
theorem formatPatterns_min_indent (conditon consequent : List String) :
    (formatPatterns conditon consequent).1 =
        conditon.map (fun l => jsSlice l (specMinIndent conditon consequent)) ∧
      (formatPatterns conditon consequent).2 =
        consequent.map (fun l => jsSlice l (specMinIndent conditon consequent)) ∧
      ((∀ l ∈ conditon, l = "") →
        specMinIndent conditon consequent = countSpace consequent) ∧
      ((∀ l ∈ consequent, l = "") →
        specMinIndent conditon consequent = countSpace conditon) ∧
      ((∀ l ∈ conditon, l = "") → (∀ l ∈ consequent, l = "") →
        formatPatterns conditon consequent = (conditon, consequent)) := by
  have hempty : ∀ (ls : List String), (∀ l ∈ ls, l = "") → countSpace ls = none := by
    intro ls h
    rw [countSpace, minOfList_eq_none, List.map_eq_nil_iff, List.filter_eq_nil_iff]
    intro l hl
    simp [h l hl]
  refine ⟨?_, ?_, ?_, ?_, ?_⟩
  · rw [formatPatterns, jsMathMin_countSpace_eq_specMinIndent]
  · rw [formatPatterns, jsMathMin_countSpace_eq_specMinIndent]
  · intro h
    rw [← jsMathMin_countSpace_eq_specMinIndent, hempty conditon h, jsMathMin]
  · intro h
    rw [← jsMathMin_countSpace_eq_specMinIndent, hempty consequent h]
    cases countSpace conditon <;> rfl
  · intro h1 h2
    rw [formatPatterns, hempty conditon h1, hempty consequent h2]
    simp only [jsMathMin]
    rw [Prod.mk.injEq]
    constructor
    · refine map_self_of_all_eq _ conditon (fun l hl => ?_)
      rw [h1 l hl]; rfl
    · refine map_self_of_all_eq _ consequent (fun l hl => ?_)
      rw [h2 l hl]; rfl

theorem formatPatterns_min_indent_witness :
    (formatPatterns ["", "  a"] [" b"]).1 =
        ["", "  a"].map (fun l => jsSlice l (specMinIndent ["", "  a"] [" b"])) ∧
      specMinIndent ["", ""] [" b"] = countSpace [" b"] ∧
      formatPatterns [""] ["", ""] = ([""], ["", ""]) :=
  ⟨(formatPatterns_min_indent ["", "  a"] [" b"]).1,
    (formatPatterns_min_indent ["", ""] [" b"]).2.2.1 (by decide),
    (formatPatterns_min_indent [""] ["", ""]).2.2.2.2 (by decide) (by decide)⟩

/-! ### Indentation invariance (C7) -/

theorem str_eq_empty_iff (s : String) : s = "" ↔ s.toList = [] := by
  rw [String.ext_iff]
  exact Iff.rfl

theorem leadingSpacesAux_replicate (k : Nat) (cs : List Char) :
    leadingSpacesAux (List.replicate k ' ' ++ cs) = k + leadingSpacesAux cs := by
  induction k with
  | zero => simp
  | succ k ih =>
    rw [List.replicate_succ, List.cons_append]
    simp [leadingSpacesAux, ih] <;> omega

theorem leadingSpaces_prepend (k : Nat) (l : String) :
    leadingSpaces (String.mk (List.replicate k ' ') ++ l) = k + leadingSpaces l :=
  leadingSpacesAux_replicate k l.toList

theorem drop_replicate_append {α : Type} (c : α) :
    ∀ (k n : Nat) (xs : List α),
      List.drop (k + n) (List.replicate k c ++ xs) = List.drop n xs := by
  intro k
  induction k with
  | zero => intro n xs; simp
  | succ k ih =>
    intro n xs
    rw [List.replicate_succ, List.cons_append]
    have he : k + 1 + n = (k + n) + 1 := by omega
    rw [he, List.drop_succ_cons, ih]

theorem jsMathMin_map_add (k : Nat) (a b : Option Nat) :
    jsMathMin (a.map (fun n => k + n)) (b.map (fun n => k + n)) =
      (jsMathMin a b).map (fun n => k + n) := by
  cases a <;> cases b <;> simp [jsMathMin] <;> omega

theorem minOfList_map_add (k : Nat) :
    ∀ (xs : List Nat),
      minOfList (xs.map (fun n => k + n)) = (minOfList xs).map (fun n => k + n) := by
  intro xs
  induction xs with
  | nil => rfl
  | cons x xs ih =>
    rw [List.map_cons, minOfList_cons, minOfList_cons, ih]
    cases minOfList xs <;> simp <;> omega

theorem prepend_ne_empty (k : Nat) (l : String) (h : l ≠ "") :
    String.mk (List.replicate k ' ') ++ l ≠ "" := by
  intro he
  apply h
  have h2 : List.replicate k ' ' ++ l.toList = [] := (str_eq_empty_iff _).mp he
  rw [List.append_eq_nil] at h2
  exact (str_eq_empty_iff l).mpr h2.2

theorem countSpace_map_prepend (k : Nat) (ls : List String) (h : ∀ l ∈ ls, l ≠ "") :
    countSpace (ls.map (fun l => String.mk (List.replicate k ' ') ++ l)) =
      (countSpace ls).map (fun n => k + n) := by
  have hf1 : (ls.map (fun l => String.mk (List.replicate k ' ') ++ l)).filter
      (fun l => l ≠ "") = ls.map (fun l => String.mk (List.replicate k ' ') ++ l) := by
    refine List.filter_eq_self.mpr (fun x hx => ?_)
    obtain ⟨l, hl, rfl⟩ := List.mem_map.mp hx
    simp [prepend_ne_empty k l (h l hl)]
  have hf2 : ls.filter (fun l => l ≠ "") = ls := by
    refine List.filter_eq_self.mpr (fun l hl => ?_)
    simp [h l hl]
  rw [countSpace, countSpace, hf1, hf2, List.map_map]
  have hcomp : ls.map (leadingSpaces ∘ fun l => String.mk (List.replicate k ' ') ++ l) =
      (ls.map leadingSpaces).map (fun n => k + n) := by
    rw [List.map_map]
    exact List.map_congr_left (fun l _ => leadingSpaces_prepend k l)
  rw [hcomp, minOfList_map_add]

theorem jsSlice_prepend (k : Nat) (l : String) (N : Option Nat) :
    jsSlice (String.mk (List.replicate k ' ') ++ l) (N.map (fun n => k + n)) =
      jsSlice l N := by
  cases N with
  | none => rfl
  | some n =>
    show String.mk (List.drop (k + n) (List.replicate k ' ' ++ l.toList)) =
      String.mk (l.toList.drop n)
    rw [drop_replicate_append]

/-- C7 counterexample: the two inputs differ by one leading space on every
line, yet normalisation disagrees — the empty line of the first input is
excluded from the leading-space minimum, but after shifting it becomes a
one-space line that drags the minimum down. -/
theorem formatPatterns_indent_invariance_cex :
    ([" ", "  a"] = ["", " a"].map (fun l => String.mk (List.replicate 1 ' ') ++ l)) ∧
      (["  b"] = [" b"].map (fun l => String.mk (List.replicate 1 ' ') ++ l)) ∧
      formatPatterns [" ", "  a"] ["  b"] ≠ formatPatterns ["", " a"] [" b"] := by
  refine ⟨rfl, rfl, ?_⟩
  decide

/-- C7 (amended): prepending the same number of leading spaces to every
line of both sides leaves the normalised condition and consequent
unchanged, provided every line of both inputs is non-empty (an empty line
is skipped by `countSpace` but its shifted all-space image is not). -/
theorem formatPatterns_indent_invariance (conditon consequent : List String) (k : Nat)
    (h1 : ∀ l ∈ conditon, l ≠ "") (h2 : ∀ l ∈ consequent, l ≠ "") :
    formatPatterns (conditon.map (fun l => String.mk (List.replicate k ' ') ++ l))
        (consequent.map (fun l => String.mk (List.replicate k ' ') ++ l)) =
      formatPatterns conditon consequent := by
  simp only [formatPatterns]
  rw [countSpace_map_prepend k conditon h1, countSpace_map_prepend k consequent h2,
    jsMathMin_map_add, Prod.mk.injEq]
  constructor
  · rw [List.map_map]
    exact List.map_congr_left (fun l _ => jsSlice_prepend k l _)
  · rw [List.map_map]
    exact List.map_congr_left (fun l _ => jsSlice_prepend k l _)

theorem formatPatterns_indent_invariance_witness :
    formatPatterns (["a"].map (fun l => String.mk (List.replicate 1 ' ') ++ l))
        (["b"].map (fun l => String.mk (List.replicate 1 ' ') ++ l)) =
      formatPatterns ["a"] ["b"] :=
  formatPatterns_indent_invariance ["a"] ["b"] 1 (by decide) (by decide)

/-! ### Idempotence of the normalizer (C10) -/

theorem jsMathMin_eq_none_iff (a b : Option Nat) :
    jsMathMin a b = none ↔ a = none ∧ b = none := by
  cases a <;> cases b <;> simp [jsMathMin]

theorem jsMathMin_zero_left (b : Option Nat) : jsMathMin (some 0) b = some 0 := by
  cases b <;> simp [jsMathMin]

theorem jsMathMin_zero_right (a : Option Nat) : jsMathMin a (some 0) = some 0 := by
  cases a <;> simp [jsMathMin]

theorem countSpace_eq_none_iff (ls : List String) :
    countSpace ls = none ↔ ∀ l ∈ ls, l = "" := by
  rw [countSpace, minOfList_eq_none, List.map_eq_nil_iff, List.filter_eq_nil_iff]
  simp

theorem jsSlice_zero (l : String) : jsSlice l (some 0) = l := rfl

theorem countSpace_zero_of_mem (ls : List String) (l : String)
    (hmem : l ∈ ls) (hne : l ≠ "") (h0 : leadingSpaces l = 0) :
    countSpace ls = some 0 := by
  have hin : (0 : Nat) ∈ (ls.filter (fun l => l ≠ "")).map leadingSpaces :=
    List.mem_map.mpr ⟨l, List.mem_filter.mpr ⟨hmem, by simp [hne]⟩, h0⟩
  obtain ⟨m, hm, hle⟩ := minOfList_le _ 0 hin
  rw [countSpace, hm, Nat.le_zero.mp hle]

theorem formatPatterns_of_min_zero (conditon consequent : List String)
    (h : jsMathMin (countSpace conditon) (countSpace consequent) = some 0) :
    formatPatterns conditon consequent = (conditon, consequent) := by
  simp only [formatPatterns]
  rw [h, Prod.mk.injEq]
  exact ⟨map_self_of_all_eq _ conditon (fun l _ => jsSlice_zero l),
    map_self_of_all_eq _ consequent (fun l _ => jsSlice_zero l)⟩

theorem leadingSpacesAux_lt_length :
    ∀ (cs : List Char), (∃ c ∈ cs, c ≠ ' ') → leadingSpacesAux cs < cs.length := by
  intro cs
  induction cs with
  | nil => rintro ⟨c, hc, _⟩; cases hc
  | cons c cs ih =>
    rintro ⟨c0, hc0, hne0⟩
    by_cases hc : c = ' '
    · subst hc
      have hc0' : c0 ∈ cs := by
        rcases List.mem_cons.mp hc0 with rfl | hmem
        · exact absurd rfl hne0
        · exact hmem
      have := ih ⟨c0, hc0', hne0⟩
      have heq : leadingSpacesAux (' ' :: cs) = leadingSpacesAux cs + 1 := by
        simp [leadingSpacesAux]
      rw [heq, List.length_cons]
      omega
    · have heq : leadingSpacesAux (c :: cs) = 0 := by
        simp [leadingSpacesAux, hc]
      rw [heq, List.length_cons]
      omega

theorem leadingSpacesAux_drop :
    ∀ (n : Nat) (cs : List Char), n ≤ leadingSpacesAux cs →
      leadingSpacesAux (cs.drop n) = leadingSpacesAux cs - n := by
  intro n
  induction n with
  | zero => intro cs _; simp
  | succ n ih =>
    intro cs hle
    cases cs with
    | nil => simp [leadingSpacesAux] at hle
    | cons c cs' =>
      by_cases hc : c = ' '
      · subst hc
        have heq : leadingSpacesAux (' ' :: cs') = leadingSpacesAux cs' + 1 := by
          simp [leadingSpacesAux]
        rw [heq] at hle
        rw [List.drop_succ_cons, ih cs' (by omega), heq]
        omega
      · have heq : leadingSpacesAux (c :: cs') = 0 := by
          simp [leadingSpacesAux, hc]
        rw [heq] at hle
        omega

/-- C10 counterexample: the line attaining the minimum indentation consists
only of spaces, so one normalisation turns it into the empty line, and a
second normalisation strips further. -/
theorem formatPatterns_idempotent_cex :
    formatPatterns (formatPatterns ["  ", "   a"] ["   b"]).1
        (formatPatterns ["  ", "   a"] ["   b"]).2 ≠
      formatPatterns ["  ", "   a"] ["   b"] := by
  decide

/-- C10 (amended): `formatPatterns` is idempotent on inputs in which every
line is empty or contains a non-space character; then after one pass some
non-empty line has zero leading spaces (or every line is empty), so a
second pass strips nothing. -/
theorem formatPatterns_idempotent (conditon consequent : List String)
    (h : ∀ l ∈ conditon ++ consequent, l ≠ "" → ∃ c ∈ l.toList, c ≠ ' ') :
    formatPatterns (formatPatterns conditon consequent).1
        (formatPatterns conditon consequent).2 =
      formatPatterns conditon consequent := by
  have hfp1 : (formatPatterns conditon consequent).1 =
      conditon.map (fun line =>
        jsSlice line (jsMathMin (countSpace conditon) (countSpace consequent))) := rfl
  have hfp2 : (formatPatterns conditon consequent).2 =
      consequent.map (fun line =>
        jsSlice line (jsMathMin (countSpace conditon) (countSpace consequent))) := rfl
  cases hN : jsMathMin (countSpace conditon) (countSpace consequent) with
  | none =>
    obtain ⟨hc1, hc2⟩ := (jsMathMin_eq_none_iff _ _).mp hN
    have he1 : ∀ l ∈ conditon, l = "" := (countSpace_eq_none_iff conditon).mp hc1
    have he2 : ∀ l ∈ consequent, l = "" := (countSpace_eq_none_iff consequent).mp hc2
    have hunch : formatPatterns conditon consequent = (conditon, consequent) := by
      simp only [formatPatterns]
      rw [hN, Prod.mk.injEq]
      constructor
      · exact map_self_of_all_eq _ conditon (fun l hl => by rw [he1 l hl]; rfl)
      · exact map_self_of_all_eq _ consequent (fun l hl => by rw [he2 l hl]; rfl)
    rw [hunch]
    exact hunch
  | some n =>
    have hspec : minOfList (((conditon ++ consequent).filter
        (fun l => l ≠ "")).map leadingSpaces) = some n := by
      have he := jsMathMin_countSpace_eq_specMinIndent conditon consequent
      rw [hN, specMinIndent] at he
      exact he.symm
    obtain ⟨x, hx_mem, hx_eq⟩ := List.mem_map.mp (minOfList_mem _ n hspec)
    have hx_both := List.mem_filter.mp hx_mem
    have hx_ne : x ≠ "" := by simpa using hx_both.2
    obtain ⟨c, hc_mem, hc_ne⟩ := h x hx_both.1 hx_ne
    have hlt : leadingSpacesAux x.toList < x.toList.length :=
      leadingSpacesAux_lt_length x.toList ⟨c, hc_mem, hc_ne⟩
    have hn : leadingSpacesAux x.toList = n := hx_eq
    have hx'_ne : jsSlice x (some n) ≠ "" := by
      intro he
      have h2 : x.toList.drop n = [] := (str_eq_empty_iff _).mp he
      rw [List.drop_eq_nil_iff] at h2
      omega
    have hx'_zero : leadingSpaces (jsSlice x (some n)) = 0 := by
      show leadingSpacesAux (x.toList.drop n) = 0
      rw [leadingSpacesAux_drop n x.toList (by omega)]
      omega
    have hN2 : jsMathMin (countSpace (formatPatterns conditon consequent).1)
        (countSpace (formatPatterns conditon consequent).2) = some 0 := by
      rcases List.mem_append.mp hx_both.1 with hxc | hxq
      · have hmem' : jsSlice x (some n) ∈ (formatPatterns conditon consequent).1 := by
          rw [hfp1, hN]
          exact List.mem_map.mpr ⟨x, hxc, rfl⟩
        rw [countSpace_zero_of_mem _ _ hmem' hx'_ne hx'_zero]
        exact jsMathMin_zero_left _
      · have hmem' : jsSlice x (some n) ∈ (formatPatterns conditon consequent).2 := by
          rw [hfp2, hN]
          exact List.mem_map.mpr ⟨x, hxq, rfl⟩
        rw [countSpace_zero_of_mem _ _ hmem' hx'_ne hx'_zero]
        exact jsMathMin_zero_right _
    rw [formatPatterns_of_min_zero _ _ hN2]

theorem formatPatterns_idempotent_witness :
    formatPatterns (formatPatterns ["a"] [" b"]).1 (formatPatterns ["a"] [" b"]).2 =
      formatPatterns ["a"] [" b"] :=
  formatPatterns_idempotent ["a"] [" b"] (by decide)

/-! ### The abstraction loop: flush counting (C3) and totality (C4) -/

theorem absStep_ok (ids : List Identifier) (st : AbsState) (t : Token) (st2 : AbsState)
    (h : absStep ids st t = .ok st2) :
    st2.previousLine = t.line ∧
      st2.patterns.length = st.patterns.length +
        (if t.line ≠ (if st.previousLine = 0 then t.line else st.previousLine)
         then 1 else 0) := by
  simp only [absStep] at h
  by_cases hflush : t.line ≠ (if st.previousLine = 0 then t.line else st.previousLine)
  · rw [if_pos hflush] at h
    rw [if_pos hflush]
    cases hr : jsRepeat ((t.colStart : Int) -
        ((AbsState.mk (st.patterns ++ [st.lineContents]) 1 t.line "").previousPosition : Int)) with
    | error e => rw [hr] at h; cases h
    | ok spaces =>
      rw [hr] at h
      simp only [Except.ok.injEq] at h
      subst h
      simp
  · rw [if_neg hflush] at h
    rw [if_neg hflush]
    cases hr : jsRepeat ((t.colStart : Int) -
        (({ st with previousLine :=
            if st.previousLine = 0 then t.line else st.previousLine }).previousPosition : Int)) with
    | error e => rw [hr] at h; cases h
    | ok spaces =>
      rw [hr] at h
      simp only [Except.ok.injEq] at h
      subst h
      push_neg at hflush
      simp [hflush.symm]

theorem absLoop_ok_length (ids : List Identifier) :
    ∀ (ts : List Token) (st st2 : AbsState), absLoop ids st ts = .ok st2 →
      st2.patterns.length =
        st.patterns.length + lineBreaks st.previousLine (ts.map Token.line) := by
  intro ts
  induction ts with
  | nil =>
    intro st st2 h
    simp only [absLoop] at h
    injection h with h
    simp [← h, lineBreaks]
  | cons t rest ih =>
    intro st st2 h
    simp only [absLoop] at h
    cases hs : absStep ids st t with
    | error e => rw [hs] at h; cases h
    | ok st1 =>
      rw [hs] at h
      obtain ⟨hline, hlen⟩ := absStep_ok ids st t st1 hs
      have hrec := ih st1 st2 h
      rw [hrec, hlen, List.map_cons, lineBreaks, hline]
      omega

theorem makeAbstractedCode_ok_length (ts : List Token) (ids : List Identifier)
    (r : List String) (h : makeAbstractedCode ts ids = .ok r) :
    r.length = lineBreaks 0 (ts.map Token.line) + 1 := by
  rw [makeAbstractedCode] at h
  cases hl : absLoop ids (AbsState.mk [] 1 0 "") ts with
  | error e => rw [hl] at h; cases h
  | ok st =>
    rw [hl] at h
    simp only [Except.ok.injEq] at h
    subst h
    have hlen := absLoop_ok_length ids ts _ st hl
    rw [List.length_append, hlen]
    simp

theorem toFinset_card_of_sorted :
    ∀ (ls : List Nat) (l : Nat), 1 ≤ l → (∀ x ∈ ls, 1 ≤ x) →
      List.Chain' (· ≤ ·) (l :: ls) →
      (l :: ls).toFinset.card = lineBreaks l ls + 1 := by
  intro ls
  induction ls with
  | nil => intro l _ _ _; simp [lineBreaks]
  | cons m ms ih =>
    intro l hl hmem hchain
    have hlm : l ≤ m := (List.chain'_cons.mp hchain).1
    have hchain' : List.Chain' (· ≤ ·) (m :: ms) := (List.chain'_cons.mp hchain).2
    have hm1 : 1 ≤ m := hmem m (List.mem_cons_self m ms)
    have hrec := ih m hm1 (fun x hx => hmem x (List.mem_cons_of_mem m hx)) hchain'
    have hifl : (if l = 0 then m else l) = l := if_neg (by omega)
    rcases eq_or_lt_of_le hlm with rfl | hlt
    · have h1 : (l :: l :: ms).toFinset = (l :: ms).toFinset := by
        simp [List.toFinset_cons]
      have h2 : lineBreaks l (l :: ms) = lineBreaks l ms := by
        rw [lineBreaks, hifl]
        simp
      rw [h1, h2]
      exact hrec
    · have hnotmem : l ∉ (m :: ms).toFinset := by
        rw [List.mem_toFinset]
        intro hmem'
        have hge : m ≤ l := by
          rcases List.mem_cons.mp hmem' with rfl | hin
          · exact le_refl l
          · have hp := List.chain'_iff_pairwise.mp hchain'
            exact (List.pairwise_cons.mp hp).1 l hin
        omega
      rw [List.toFinset_cons, Finset.card_insert_of_not_mem hnotmem, hrec]
      have h3 : lineBreaks l (m :: ms) = 1 + lineBreaks m ms := by
        rw [lineBreaks, hifl, if_pos (by omega : m ≠ l)]
      rw [h3]
      omega

/-- C3 counterexample: an empty token stream does not produce an empty
output list — the final `patterns.push(lineContents)` (line 99) always runs,
so the result is a single empty line while zero distinct line values occur. -/
theorem makeAbstractedCode_empty_cex :
    makeAbstractedCode [] [] = .ok [""] ∧
      ¬ ([""].length = (([] : List Token).map Token.line).toFinset.card) :=
  ⟨rfl, by decide⟩

/-- C3 (amended): when abstraction succeeds on a token stream whose line
numbers are positive and nondecreasing, a nonempty stream yields exactly
one output line per distinct line value, while the empty stream yields the
single empty line. -/
theorem makeAbstractedCode_line_count (tokens : List Token) (ids : List Identifier)
    (r : List String) (hok : makeAbstractedCode tokens ids = .ok r)
    (hpos : ∀ t ∈ tokens, 1 ≤ t.line)
    (hsorted : List.Chain' (· ≤ ·) (tokens.map Token.line)) :
    (tokens = [] → r = [""]) ∧
      (tokens ≠ [] → r.length = (tokens.map Token.line).toFinset.card) := by
  constructor
  · rintro rfl
    have hval : makeAbstractedCode [] ids = .ok [""] := rfl
    rw [hval] at hok
    injection hok with hok
    exact hok.symm
  · intro hne
    cases tokens with
    | nil => exact absurd rfl hne
    | cons t ts =>
      have hlen := makeAbstractedCode_ok_length (t :: ts) ids r hok
      rw [List.map_cons] at hsorted ⊢
      have h0 : lineBreaks 0 (t.line :: ts.map Token.line) =
          lineBreaks t.line (ts.map Token.line) := by
        rw [lineBreaks]
        simp
      have hcard := toFinset_card_of_sorted (ts.map Token.line) t.line
        (hpos t (List.mem_cons_self t ts))
        (fun x hx => by
          obtain ⟨u, hu, rfl⟩ := List.mem_map.mp hx
          exact hpos u (List.mem_cons_of_mem t hu))
        hsorted
      rw [hlen, List.map_cons, h0, hcard]

theorem makeAbstractedCode_line_count_witness :
    ([Token.mk "a" ["variable"] 1 1 2, Token.mk "b" ["variable"] 2 1 2] : List Token) ≠ [] ∧
      (["a", "b"] : List String).length =
        (([Token.mk "a" ["variable"] 1 1 2,
           Token.mk "b" ["variable"] 2 1 2].map Token.line).toFinset.card) :=
  ⟨by decide,
    (makeAbstractedCode_line_count
      [Token.mk "a" ["variable"] 1 1 2, Token.mk "b" ["variable"] 2 1 2] [] ["a", "b"]
      rfl (by decide) (by simp [List.chain'_cons])).2 (by decide)⟩

theorem absLoop_total (ids : List Identifier) :
    ∀ (ts : List Token) (st : AbsState),
      (∀ t ∈ ts, 1 ≤ t.line ∧ 1 ≤ t.colStart) →
      List.Chain' (fun a b => b.line = a.line → a.colEnd ≤ b.colStart) ts →
      (∀ t, ts.head? = some t → (st.previousLine = 0 ∨ t.line = st.previousLine) →
        st.previousPosition ≤ t.colStart) →
      ∃ st2, absLoop ids st ts = .ok st2 := by
  intro ts
  induction ts with
  | nil => intro st _ _ _; exact ⟨st, rfl⟩
  | cons t rest ih =>
    intro st hmem hchain hhead
    obtain ⟨hline1, hcol1⟩ := hmem t (List.mem_cons_self t rest)
    have hstep : ∃ st1, absStep ids st t = .ok st1 ∧ st1.previousPosition = t.colEnd ∧
        st1.previousLine = t.line := by
      simp only [absStep]
      by_cases hflush : t.line ≠ (if st.previousLine = 0 then t.line else st.previousLine)
      · rw [if_pos hflush, jsRepeat, if_neg (by dsimp only; omega)]
        exact ⟨_, rfl, rfl, rfl⟩
      · have hP : t.line = (if st.previousLine = 0 then t.line else st.previousLine) := by
          push_neg at hflush
          exact hflush
        have hle : st.previousPosition ≤ t.colStart := by
          by_cases h0 : st.previousLine = 0
          · exact hhead t rfl (Or.inl h0)
          · rw [if_neg h0] at hP
            exact hhead t rfl (Or.inr hP)
        rw [if_neg (not_not.mpr hP), jsRepeat, if_neg (by dsimp only; omega)]
        exact ⟨_, rfl, rfl, hP.symm⟩
    obtain ⟨st1, hs1, hpos1, hline1'⟩ := hstep
    obtain ⟨st2, h2⟩ := ih st1
      (fun u hu => hmem u (List.mem_cons_of_mem t hu))
      ((List.chain'_cons'.mp hchain).2)
      (by
        intro u hu hdisj
        rw [hline1'] at hdisj
        rcases hdisj with h0 | heq
        · exact absurd h0 (by omega)
        · have hrel := (List.chain'_cons'.mp hchain).1 u (Option.mem_def.mpr hu)
          rw [hpos1]
          exact hrel heq)
    refine ⟨st2, ?_⟩
    simp only [absLoop]
    rw [hs1]
    exact h2

/-- C4 counterexample: `makeAbstractedCode` is not total — a token whose
start column precedes the running cursor makes the column gap negative and
`' '.repeat` (line 97) throws a `RangeError`; the other core functions
never reach a throwing operation. -/
theorem makeAbstractedCode_throws_cex :
    makeAbstractedCode [Token.mk "x" ["variable"] 1 0 1] [] =
      .error "RangeError: Invalid count value" := rfl

/-- C4 (amended): unification, normalization and the drivers signal missing
data via `undefined` and never throw, and token abstraction returns a value
on every token stream whose tokens sit on positive lines, start at column 1
or later, and never start before the previous same-line token's end. -/
theorem makeAbstractedCode_total (tokens : List Token) (ids : List Identifier)
    (hmem : ∀ t ∈ tokens, 1 ≤ t.line ∧ 1 ≤ t.colStart)
    (hchain : List.Chain' (fun a b => b.line = a.line → a.colEnd ≤ b.colStart) tokens) :
    ∃ r, makeAbstractedCode tokens ids = .ok r := by
  obtain ⟨st2, h2⟩ := absLoop_total ids tokens (AbsState.mk [] 1 0 "") hmem hchain
    (fun t ht _ => (hmem t (List.mem_of_mem_head? (Option.mem_def.mpr ht))).2)
  exact ⟨st2.patterns ++ [st2.lineContents], by rw [makeAbstractedCode, h2]⟩

theorem makeAbstractedCode_total_witness :
    ∃ r, makeAbstractedCode
      [Token.mk "x" ["variable"] 1 1 2, Token.mk "y" ["variable"] 1 3 4] [] = .ok r :=
  makeAbstractedCode_total
    [Token.mk "x" ["variable"] 1 1 2, Token.mk "y" ["variable"] 1 3 4] []
    (by decide) (by simp [List.chain'_cons])

/-! ### The diff-level driver (C8) -/

theorem makePatternsFromDiffLoop_spec (tok : String → String → Option (List Token)) :
    ∀ (chunks : List Chunk) (acc ps : List Pattern),
      makePatternsFromDiffLoop tok acc chunks = .ok ps →
      ps = acc ++ chunks.filterMap (fun c =>
        match makePatternsFromChunk tok c with
        | .ok (some p) =>
          if !isEmptyPattern p.condition && !isEmptyPattern p.consequent then some p
          else none
        | _ => none) := by
  intro chunks
  induction chunks with
  | nil =>
    intro acc ps h
    simp only [makePatternsFromDiffLoop] at h
    injection h with h
    simp [← h]
  | cons c rest ih =>
    intro acc ps h
    simp only [makePatternsFromDiffLoop] at h
    rw [List.filterMap_cons]
    cases hc : makePatternsFromChunk tok c with
    | error e => rw [hc] at h; cases h
    | ok po =>
      rw [hc] at h
      cases po with
      | none =>
        dsimp only at h
        rw [ih acc ps h]
      | some pat =>
        dsimp only at h
        by_cases hemp :
            (!isEmptyPattern pat.condition && !isEmptyPattern pat.consequent) = true
        · rw [if_pos hemp] at h
          rw [ih (acc ++ [pat]) ps h, List.append_assoc]
          simp [hemp]
        · rw [if_neg hemp] at h
          rw [ih acc ps h]
          simp [hemp]

/-- C8: whenever the diff-level driver returns a pattern list, no pattern
in it has a degenerate (single empty line) condition or consequent, and the
list is exactly the in-order filtering of the chunks' patterns. -/
theorem makePatternsFromDiff_filters_empty (tok : String → String → Option (List Token))
    (chunks : List Chunk) (ps : List Pattern)
    (h : makePatternsFromDiff tok chunks = .ok ps) :
    (∀ p ∈ ps, isEmptyPattern p.condition = false ∧ isEmptyPattern p.consequent = false) ∧
      ps = chunks.filterMap (fun c =>
        match makePatternsFromChunk tok c with
        | .ok (some p) =>
          if !isEmptyPattern p.condition && !isEmptyPattern p.consequent then some p
          else none
        | _ => none) := by
  have hps := makePatternsFromDiffLoop_spec tok chunks [] ps h
  rw [List.nil_append] at hps
  refine ⟨?_, hps⟩
  intro p hp
  rw [hps] at hp
  obtain ⟨c, _, hfc⟩ := List.mem_filterMap.mp hp
  cases hmc : makePatternsFromChunk tok c with
  | error e => rw [hmc] at hfc; simp at hfc
  | ok po =>
    cases po with
    | none => rw [hmc] at hfc; simp at hfc
    | some q =>
      rw [hmc] at hfc
      dsimp only at hfc
      by_cases hemp : (!isEmptyPattern q.condition && !isEmptyPattern q.consequent) = true
      · rw [if_pos hemp] at hfc
        injection hfc with hqp
        subst hqp
        simp only [Bool.and_eq_true, Bool.not_eq_true'] at hemp
        exact hemp
      · rw [if_neg hemp] at hfc
        cases hfc

theorem makePatternsFromDiff_filters_empty_witness :
    ([] : List Pattern) = ([Chunk.mk ["x"] ["y"] "js"]).filterMap (fun c =>
      match makePatternsFromChunk (fun _ _ => some []) c with
      | .ok (some p) =>
        if !isEmptyPattern p.condition && !isEmptyPattern p.consequent then some p
        else none
      | _ => none) :=
  (makePatternsFromDiff_filters_empty (fun _ _ => some [])
    [Chunk.mk ["x"] ["y"] "js"] [] rfl).2
